import Mathlib

set_option maxHeartbeats 1000000
set_option autoImplicit false

/-!
Shallow embedding of the backtracking regular-expression engine of
`src/regex.py`.

The Python program builds a graph of state objects linked through mutable
`next_states` lists, then matches a string by a recursive depth-first search
over that graph.  The embedding represents the heap of state objects as an
arena: a `List Node`, where a state object is identified by its position in
the list, `next` lists hold arena indices, and Python object identity
(`is`) becomes index equality.  Index 0 is always the synthetic start state.

The matcher's recursion in the source is unbounded (and, as proved below, it
really can recurse forever on graphs with nested quantifiers), so the
embedded search takes an explicit fuel argument and returns `none` when the
fuel runs out: `dfs` terminating in the source corresponds to
`∃ fuel, dfs … = some b` here.
-/

/-- Tags of the state classes in the source: `TerminationState`, `DotState`,
`AsciiState` (with its stored `curr_sym`), `StarState` and `PlusState` (with
the arena index of the wrapped `inner` state), and `StartState`. -/
inductive Tag where
  | termination
  | dot
  | ascii (curr_sym : Char)
  | star (inner : Nat)
  | plus (inner : Nat)
  | start
deriving DecidableEq

/-- A state object: its class tag and its `next_states` list of arena
indices. -/
structure Node where
  tag : Tag
  next : List Nat
deriving DecidableEq

/-- The two compile-time errors of the source: `ValueError` for a dangling
quantifier (line 114, carrying the character and its position) and
`AttributeError` for an unsupported character (line 134, carrying the
character). -/
inductive CompileError where
  | danglingQuantifier (c : Char) (pos : Nat)
  | unsupportedSymbol (c : Char)
deriving DecidableEq

/-- Python's `str.isascii` on a single character: code point below 128. -/
def isascii (c : Char) : Bool :=
  c.toNat < 128

/-- The `next_states` list of the node at index `i` (empty when the index is
out of range, which never happens for compiled graphs). -/
def nextOf (g : List Node) (i : Nat) : List Nat :=
  match g[i]? with
  | some n => n.next
  | none => []

/-- The class tag of the node at index `i`. -/
def tagOf (g : List Node) (i : Nat) : Option Tag :=
  match g[i]? with
  | some n => some n.tag
  | none => none

/-- `g[i].next_states.append(j)` on the arena. -/
def appendNext (g : List Node) (i j : Nat) : List Node :=
  match g[i]? with
  | some n => g.set i ⟨n.tag, n.next ++ [j]⟩
  | none => g

/-- `g[i].next_states = l` on the arena. -/
def setNext (g : List Node) (i : Nat) (l : List Nat) : List Node :=
  match g[i]? with
  | some n => g.set i ⟨n.tag, l⟩
  | none => g

/-- Replace the first occurrence of `t` by `r`. -/
def replaceFirst : List Nat → Nat → Nat → List Nat
  | [], _, _ => []
  | x :: xs, t, r => if x = t then r :: xs else x :: replaceFirst xs t r

/-- Lines 122-125 of the source scan `parent.next_states` reversed and
overwrite the first entry that `is inner`, i.e. they replace the last
occurrence of `inner`. -/
def replaceLast (l : List Nat) (t r : Nat) : List Nat :=
  (replaceFirst l.reverse t r).reverse

/-- The compiler's in-progress data: the arena of allocated states, and the
`states_chain` / `preds` stacks of `RegexFSM.__init__`.  The two Python lists
always have equal length, so they are kept zipped: the head of `stack` is the
current tail of the chain paired with its recorded parent (`none` when it was
attached directly to the start state). -/
structure CState where
  arena : List Node
  stack : List (Nat × Option Nat)
deriving DecidableEq

/-- A compiled automaton: the final arena.  The start state is index 0. -/
structure FSM where
  graph : List Node
deriving DecidableEq

/-- Lines 136-139 of the source, the common tail for literal and wildcard
characters: append the freshly created node to the current tail's
`next_states`, push it on `states_chain` and push the old tail on `preds`.
The `[]` case is unreachable: the stack starts nonempty and never shrinks
below one entry. -/
def pushNode (s : CState) (t : Tag) : CState :=
  match s.stack with
  | (tail, _) :: _ =>
    ⟨appendNext s.arena tail s.arena.length ++ [⟨t, []⟩],
      (s.arena.length, some tail) :: s.stack⟩
  | [] => s

/-- One iteration of the `while` loop of `RegexFSM.__init__` (lines 103-141)
on character `c` at position `i`. -/
def compileStep (s : CState) (c : Char) (i : Nat) : Except CompileError CState :=
  if c = '.' then
    Except.ok (pushNode s Tag.dot)
  else if isascii c && c != '*' && c != '+' then
    Except.ok (pushNode s (Tag.ascii c))
  else if c = '*' ∨ c = '+' then
    match s.stack with
    | (inner, parent) :: rest =>
      if rest.isEmpty then
        Except.error (CompileError.danglingQuantifier c i)
      else
        let j := s.arena.length
        let tag := if c = '*' then Tag.star inner else Tag.plus inner
        let a1 := appendNext s.arena inner j ++ [⟨tag, [inner]⟩]
        let a2 :=
          match parent with
          | some p => setNext a1 p (replaceLast (nextOf a1 p) inner j)
          | none => setNext a1 0 ((nextOf a1 0).map fun x => if x = inner then j else x)
        Except.ok ⟨a2, (j, parent) :: rest⟩
    | [] => Except.error (CompileError.danglingQuantifier c i)
  else
    Except.error (CompileError.unsupportedSymbol c)

/-- The whole `while` loop, threading the position counter. -/
def compileAux : List Char → Nat → CState → Except CompileError CState
  | [], _, s => Except.ok s
  | c :: cs, i, s =>
    match compileStep s c i with
    | Except.ok s2 => compileAux cs (i + 1) s2
    | Except.error e => Except.error e

/-- The compiler's starting state: the arena holds only the start state and
the stacks hold the single entry `(start, None)`. -/
def initState : CState :=
  ⟨[⟨Tag.start, []⟩], [(0, none)]⟩

/-- `RegexFSM.__init__`: run the loop over the pattern, then allocate the
`TerminationState` and append it to the final tail's `next_states`
(lines 143-145). -/
def compile (pattern : String) : Except CompileError FSM :=
  match compileAux pattern.data 0 initState with
  | Except.error e => Except.error e
  | Except.ok s =>
    Except.ok ⟨appendNext (s.arena ++ [⟨Tag.termination, []⟩])
      (s.stack.headD (0, none)).1 s.arena.length⟩

/-- `check_self` of each state class: `TerminationState`, `StartState` refuse
every character, `DotState` accepts every character, `AsciiState` compares
with its stored symbol, and `StarState` / `PlusState` delegate to
`inner.check_self`.  The `fuel` argument bounds the delegation depth; in
every compiled graph a repeat node's `inner` index is strictly smaller than
its own index, so the fuel `i + 1` used by `check_self` never runs out. -/
def check_selfF (g : List Node) : Nat → Nat → Char → Bool
  | 0, _, _ => false
  | fuel + 1, i, c =>
    match g[i]? with
    | none => false
    | some n =>
      match n.tag with
      | Tag.termination => false
      | Tag.dot => true
      | Tag.ascii sym => decide (c = sym)
      | Tag.star inner => check_selfF g fuel inner c
      | Tag.plus inner => check_selfF g fuel inner c
      | Tag.start => false

/-- `state.check_self(c)` for the state at arena index `i`. -/
def check_self (g : List Node) (i : Nat) (c : Char) : Bool :=
  check_selfF g (i + 1) i c

/-- The two argument shapes of the matcher's recursion: `node i idx` is a
call `dfs(state_i, idx)` of the source, and `seq succs idx` is the remaining
part of one of its `for nxt in …: if dfs(nxt, idx'): return True` loops. -/
inductive Frame where
  | node (i : Nat) (idx : Nat)
  | seq (succs : List Nat) (idx : Nat)
deriving DecidableEq

/-- The inner `dfs` of `check_string` (lines 153-164), fuel-indexed:

* a `TerminationState` succeeds exactly when the whole input is consumed;
* otherwise, when the index is in bounds and `check_self` accepts the current
  character, every successor is tried at `idx + 1`;
* when that fails and the state is a `StarState` or `PlusState`, every
  successor is tried again at the same index (the zero-occurrence skip);
* otherwise the call fails.

A `seq` task returns `True` as soon as one successor succeeds and `False`
when the list is exhausted.  `none` means the fuel ran out; the source's
`dfs` terminates on an input exactly when some fuel yields `some` here. -/
def dfs (g : List Node) (text : List Char) : Nat → Frame → Option Bool
  | 0, _ => none
  | fuel + 1, Frame.node i idx =>
    match g[i]? with
    | none => some false
    | some n =>
      match n.tag with
      | Tag.termination => some (decide (idx = text.length))
      | t =>
        let afterConsume : Option Bool :=
          if idx < text.length && check_self g i (text.getD idx ' ') then
            dfs g text fuel (Frame.seq n.next (idx + 1))
          else some false
        match afterConsume with
        | some false =>
          match t with
          | Tag.star _ => dfs g text fuel (Frame.seq n.next idx)
          | Tag.plus _ => dfs g text fuel (Frame.seq n.next idx)
          | _ => some false
        | r => r
  | _ + 1, Frame.seq [] _ => some false
  | fuel + 1, Frame.seq (j :: rest) idx =>
    match dfs g text fuel (Frame.node j idx) with
    | some false => dfs g text fuel (Frame.seq rest idx)
    | r => r

/-- `RegexFSM.check_string` (lines 149-169): try every transition out of the
start state at index 0. -/
def check_string (fsm : FSM) (s : String) (fuel : Nat) : Option Bool :=
  match fsm.graph[0]? with
  | some st => dfs fsm.graph s.data fuel (Frame.seq st.next 0)
  | none => some false

/-- Compile `p` and run the matcher with the given fuel; `none` when
compilation fails or the search runs out of fuel. -/
def matchesFuel (p s : String) (fuel : Nat) : Option Bool :=
  match compile p with
  | Except.ok fsm => check_string fsm s fuel
  | Except.error _ => none

/-! ### Fuel monotonicity and determinism of the matcher -/

theorem dfs_mono (g : List Node) (text : List Char) :
    ∀ fuel t b, dfs g text fuel t = some b → dfs g text (fuel + 1) t = some b := by
  intro fuel
  induction fuel with
  | zero => intro t b h; simp [dfs] at h
  | succ f ih =>
    intro t b h
    match t with
    | Frame.node i idx =>
      simp only [dfs] at h ⊢
      cases hg : g[i]? with
      | none => simp only [hg] at h ⊢; exact h
      | some n =>
        simp only [hg] at h ⊢
        obtain ⟨tag, next⟩ := n
        cases tag with
        | termination => exact h
        | dot =>
          by_cases hc : (decide (idx < text.length) && check_self g i (text.getD idx ' ')) = true
          · simp only [hc, if_true] at h ⊢
            cases hd : dfs g text f (Frame.seq next (idx + 1)) with
            | none => simp [hd] at h
            | some bb =>
              rw [ih _ _ hd]
              rw [hd] at h
              cases bb <;> exact h
          · simp only [hc, if_false] at h ⊢; exact h
        | ascii sym =>
          by_cases hc : (decide (idx < text.length) && check_self g i (text.getD idx ' ')) = true
          · simp only [hc, if_true] at h ⊢
            cases hd : dfs g text f (Frame.seq next (idx + 1)) with
            | none => simp [hd] at h
            | some bb =>
              rw [ih _ _ hd]
              rw [hd] at h
              cases bb <;> exact h
          · simp only [hc, if_false] at h ⊢; exact h
        | start =>
          by_cases hc : (decide (idx < text.length) && check_self g i (text.getD idx ' ')) = true
          · simp only [hc, if_true] at h ⊢
            cases hd : dfs g text f (Frame.seq next (idx + 1)) with
            | none => simp [hd] at h
            | some bb =>
              rw [ih _ _ hd]
              rw [hd] at h
              cases bb <;> exact h
          · simp only [hc, if_false] at h ⊢; exact h
        | star inner =>
          by_cases hc : (decide (idx < text.length) && check_self g i (text.getD idx ' ')) = true
          · simp only [hc, if_true] at h ⊢
            cases hd : dfs g text f (Frame.seq next (idx + 1)) with
            | none => simp [hd] at h
            | some bb =>
              rw [ih _ _ hd]
              rw [hd] at h
              cases bb with
              | true => exact h
              | false => exact ih _ _ h
          · simp only [hc, if_false] at h ⊢
            exact ih _ _ h
        | plus inner =>
          by_cases hc : (decide (idx < text.length) && check_self g i (text.getD idx ' ')) = true
          · simp only [hc, if_true] at h ⊢
            cases hd : dfs g text f (Frame.seq next (idx + 1)) with
            | none => simp [hd] at h
            | some bb =>
              rw [ih _ _ hd]
              rw [hd] at h
              cases bb with
              | true => exact h
              | false => exact ih _ _ h
          · simp only [hc, if_false] at h ⊢
            exact ih _ _ h
    | Frame.seq [] idx =>
      simp only [dfs] at h ⊢; exact h
    | Frame.seq (j :: rest) idx =>
      have unfold1 : ∀ fl, dfs g text (fl + 1) (Frame.seq (j :: rest) idx) =
          (match dfs g text fl (Frame.node j idx) with
            | some false => dfs g text fl (Frame.seq rest idx)
            | r => r) := fun _ => rfl
      rw [unfold1] at h
      rw [unfold1]
      cases hd : dfs g text f (Frame.node j idx) with
      | none => simp [hd] at h
      | some bb =>
        rw [ih _ _ hd]
        rw [hd] at h
        cases bb with
        | true => exact h
        | false => exact ih _ _ h

theorem dfs_mono_le (g : List Node) (text : List Char) {f1 f2 : Nat} {t : Frame}
    {b : Bool} (hle : f1 ≤ f2) (h : dfs g text f1 t = some b) :
    dfs g text f2 t = some b := by
  obtain ⟨k, rfl⟩ := Nat.exists_eq_add_of_le hle
  clear hle
  induction k with
  | zero => exact h
  | succ n ihn => exact dfs_mono _ _ _ _ _ ihn

theorem dfs_det (g : List Node) (text : List Char) {f1 f2 : Nat} {t : Frame}
    {b1 b2 : Bool} (h1 : dfs g text f1 t = some b1) (h2 : dfs g text f2 t = some b2) :
    b1 = b2 := by
  rcases le_total f1 f2 with hle | hle
  · have := dfs_mono_le g text hle h1
    rw [this] at h2
    exact Option.some.inj h2
  · have := dfs_mono_le g text hle h2
    rw [this] at h1
    exact (Option.some.inj h1).symm

theorem check_string_mono_le (fsm : FSM) (s : String) {f1 f2 : Nat} {b : Bool}
    (hle : f1 ≤ f2) (h : check_string fsm s f1 = some b) :
    check_string fsm s f2 = some b := by
  cases hg : fsm.graph[0]? with
  | none => simp only [check_string, hg] at h ⊢; exact h
  | some st =>
    simp only [check_string, hg] at h ⊢
    exact dfs_mono_le _ _ hle h

theorem check_string_det (fsm : FSM) (s : String) {f1 f2 : Nat} {b1 b2 : Bool}
    (h1 : check_string fsm s f1 = some b1) (h2 : check_string fsm s f2 = some b2) :
    b1 = b2 := by
  cases hg : fsm.graph[0]? with
  | none =>
    simp only [check_string, hg] at h1 h2
    exact Option.some.inj (h1.symm.trans h2)
  | some st =>
    simp only [check_string, hg] at h1 h2
    exact dfs_det _ _ h1 h2

/-! ### The graph of pattern `a**` makes the matcher recurse forever -/

/-- The arena `compile` produces for the pattern `a**`: index 2 is the
`StarState` wrapping the literal, index 3 the `StarState` wrapping index 2.
Nodes 2 and 3 point at each other, so the zero-occurrence skip branch cycles
at a fixed input index. -/
def graphDoubleStar : List Node :=
  [⟨Tag.start, [3]⟩, ⟨Tag.ascii 'a', [2]⟩, ⟨Tag.star 1, [1, 3]⟩,
    ⟨Tag.star 2, [2, 4]⟩, ⟨Tag.termination, []⟩]

theorem doubleStar_dfs_none : ∀ fuel,
    dfs graphDoubleStar [] fuel (Frame.node 2 0) = none ∧
    dfs graphDoubleStar [] fuel (Frame.node 3 0) = none ∧
    dfs graphDoubleStar [] fuel (Frame.seq [2, 4] 0) = none ∧
    dfs graphDoubleStar [] fuel (Frame.seq [1, 3] 0) = none ∧
    dfs graphDoubleStar [] fuel (Frame.seq [3] 0) = none := by
  intro fuel
  induction fuel with
  | zero => simp [dfs]
  | succ f ih =>
    obtain ⟨ih2, ih3, ih24, ih13, ih3s⟩ := ih
    have hg1 : graphDoubleStar[1]? = some ⟨Tag.ascii 'a', [2]⟩ := rfl
    have hg2 : graphDoubleStar[2]? = some ⟨Tag.star 1, [1, 3]⟩ := rfl
    have hg3 : graphDoubleStar[3]? = some ⟨Tag.star 2, [2, 4]⟩ := rfl
    refine ⟨?_, ?_, ?_, ?_, ?_⟩
    · simp [dfs, hg2, ih13]
    · simp [dfs, hg3, ih24]
    · simp [dfs, ih2]
    · cases f with
      | zero => simp [dfs]
      | succ e =>
        have h1 : dfs graphDoubleStar [] (e + 1) (Frame.node 1 0) = some false := by
          simp [dfs, hg1]
        have step : dfs graphDoubleStar [] (e + 1 + 1) (Frame.seq [1, 3] 0) =
            (match dfs graphDoubleStar [] (e + 1) (Frame.node 1 0) with
              | some false => dfs graphDoubleStar [] (e + 1) (Frame.seq [3] 0)
              | r => r) := rfl
        rw [step, h1]
        exact ih3s
    · simp [dfs, ih3]

/-- Claim C1: the claim states that for every graph produced by a successful
compile and every input string, `check_string` terminates and returns a
boolean, including for graphs whose `Repeat` back-edges form cycles such as
the one compiled from `a**`.  The code violates this: compiling `a**`
succeeds, and on the empty string the search cycles between the two
`StarState` nodes at input index 0 without consuming a character, so the
fuel-indexed search returns `none` at every fuel — the source recursion
never returns (it dies with a `RecursionError`). -/
theorem check_string_diverges_on_consecutive_quantifiers :
    ∃ fsm, compile "a**" = Except.ok fsm ∧ fsm.graph = graphDoubleStar ∧
      ∀ fuel, check_string fsm "" fuel = none := by
  refine ⟨⟨graphDoubleStar⟩, by rfl, rfl, ?_⟩
  intro fuel
  exact (doubleStar_dfs_none fuel).2.2.2.2

/-- Claim C7: the compiled matcher reproduces the reference behaviors of the
source's own test harness: `a*a` accepts `a`, `aa`, `aaa`; `a*4.+hi` accepts
`4uhi` and rejects `meow`; `m*..+w` accepts `meow`, `meovalw` and `eow`.
Fuel 100 is enough for every search here, and by `check_string_det` the
returned boolean is the same at every sufficient fuel, so `some false` for
`meow` is a genuine rejection. -/
theorem reference_behaviors :
    matchesFuel "a*a" "a" 100 = some true ∧
    matchesFuel "a*a" "aa" 100 = some true ∧
    matchesFuel "a*a" "aaa" 100 = some true ∧
    matchesFuel "a*4.+hi" "4uhi" 100 = some true ∧
    matchesFuel "a*4.+hi" "meow" 100 = some false ∧
    matchesFuel "m*..+w" "meow" 100 = some true ∧
    matchesFuel "m*..+w" "meovalw" 100 = some true ∧
    matchesFuel "m*..+w" "eow" 100 = some true := by
  refine ⟨by decide, by decide, by decide, by decide, by decide, by decide,
    by decide, by decide⟩

/-- Claim C8: compiling the empty pattern yields a graph whose start state's
transition list is exactly the singleton pointing at the termination node,
and matching with that graph accepts the empty string and rejects every
non-empty string (whenever the search returns at all, the answer is
`s = ""`; fuel 2 already suffices). -/
theorem empty_pattern_start_to_termination :
    compile "" = Except.ok ⟨[⟨Tag.start, [1]⟩, ⟨Tag.termination, []⟩]⟩ ∧
    (∀ (s : String) (fuel : Nat),
      check_string ⟨[⟨Tag.start, [1]⟩, ⟨Tag.termination, []⟩]⟩ s (fuel + 2) =
        some (decide (s = ""))) ∧
    (∀ (s : String) (fuel : Nat) (b : Bool),
      check_string ⟨[⟨Tag.start, [1]⟩, ⟨Tag.termination, []⟩]⟩ s fuel = some b →
        b = decide (s = "")) := by
  have key : ∀ (s : String) (fuel : Nat),
      check_string ⟨[⟨Tag.start, [1]⟩, ⟨Tag.termination, []⟩]⟩ s (fuel + 2) =
        some (decide (s = "")) := by
    intro s fuel
    obtain ⟨l⟩ := s
    cases l with
    | nil => simp [check_string, dfs]
    | cons c cs => simp [check_string, dfs, String.ext_iff]
  refine ⟨rfl, key, ?_⟩
  intro s fuel b h
  exact check_string_det _ _ h (key s 0)

/-- Witness for the hypothesis of `empty_pattern_start_to_termination`:
applied to the concrete non-empty string `x` at fuel 5. -/
theorem empty_pattern_start_to_termination_witness :
    (false : Bool) = decide (("x" : String) = "") :=
  empty_pattern_start_to_termination.2.2 "x" 5 false (by decide)

/-- Claim C2: the search succeeds at a `TerminationState` exactly when the
current index equals the length of the text (full-match anchor, no substring
search), and the graph compiled from the pattern `a` accepts exactly the
string `a`: whenever the search returns at all it returns `decide (s = "a")`,
so `ab` and `ba` are rejected. -/
theorem check_string_full_match_anchor :
    (∀ (g : List Node) (text : List Char) (fuel i idx : Nat) (n : Node),
      g[i]? = some n → n.tag = Tag.termination →
      dfs g text (fuel + 1) (Frame.node i idx) = some (decide (idx = text.length))) ∧
    (∃ fsm, compile "a" = Except.ok fsm ∧
      (∀ (s : String) (fuel : Nat),
        check_string fsm s (fuel + 4) = some (decide (s = "a"))) ∧
      check_string fsm "a" 5 = some true ∧
      check_string fsm "ab" 5 = some false ∧
      check_string fsm "ba" 5 = some false) := by
  constructor
  · intro g text fuel i idx n hg htag
    obtain ⟨tag, next⟩ := n
    cases htag
    simp [dfs, hg]
  · refine ⟨⟨[⟨Tag.start, [1]⟩, ⟨Tag.ascii 'a', [2]⟩, ⟨Tag.termination, []⟩]⟩,
      rfl, ?_, by decide, by decide, by decide⟩
    intro s fuel
    obtain ⟨l⟩ := s
    match l with
    | [] => simp [check_string, dfs]
    | c :: cs =>
      by_cases hc : c = 'a'
      · subst hc
        match cs with
        | [] => simp [check_string, dfs, check_self, check_selfF]
        | c2 :: cs2 =>
          simp [check_string, dfs, check_self, check_selfF, String.ext_iff]
      · simp [check_string, dfs, check_self, check_selfF, String.ext_iff, hc]

/-- Witness for the hypotheses of `check_string_full_match_anchor`: the
termination rule applied to the one-node graph at index 0 of the empty text. -/
theorem check_string_full_match_anchor_witness :
    dfs [⟨Tag.termination, []⟩] [] 1 (Frame.node 0 0) = some true := by
  have h := check_string_full_match_anchor.1 [⟨Tag.termination, []⟩] [] 0 0 0
    ⟨Tag.termination, []⟩ rfl rfl
  simpa using h

/-! ### The matcher does not distinguish `StarState` from `PlusState` -/

/-- Retag every `PlusState` as a `StarState` with the same `inner`. -/
def starify : Tag → Tag
  | Tag.plus inner => Tag.star inner
  | t => t

/-- Apply `starify` to every node of an arena, keeping all transition lists. -/
def starifyG (g : List Node) : List Node :=
  g.map fun n => ⟨starify n.tag, n.next⟩

theorem starifyG_getElem? (g : List Node) (i : Nat) :
    (starifyG g)[i]? = Option.map (fun n => Node.mk (starify n.tag) n.next) g[i]? := by
  simp [starifyG]

theorem check_selfF_starify (g : List Node) :
    ∀ fuel i c, check_selfF (starifyG g) fuel i c = check_selfF g fuel i c := by
  intro fuel
  induction fuel with
  | zero => intro i c; rfl
  | succ f ih =>
    intro i c
    simp only [check_selfF, starifyG_getElem?]
    cases hg : g[i]? with
    | none => rfl
    | some n =>
      obtain ⟨tag, next⟩ := n
      cases tag <;> simp [starify, ih]

theorem check_self_starify (g : List Node) (i : Nat) (c : Char) :
    check_self (starifyG g) i c = check_self g i c :=
  check_selfF_starify g (i + 1) i c

theorem dfs_starify (g : List Node) (text : List Char) :
    ∀ fuel t, dfs (starifyG g) text fuel t = dfs g text fuel t := by
  intro fuel
  induction fuel with
  | zero => intro t; rfl
  | succ f ih =>
    intro t
    match t with
    | Frame.node i idx =>
      simp only [dfs, starifyG_getElem?]
      cases hg : g[i]? with
      | none => rfl
      | some n =>
        obtain ⟨tag, next⟩ := n
        cases tag <;> simp [starify, check_self_starify, ih]
    | Frame.seq [] idx => rfl
    | Frame.seq (j :: rest) idx =>
      simp only [dfs, ih]

/-- Claim C4: the matcher treats `PlusState` identically to `StarState` (both
get the zero-occurrence skip), so for every supported unit character `u` the
graphs compiled from `u*` and `u+` agree on `check_string` for every string
and every fuel; in particular the graph compiled from `a+` accepts the empty
string. -/
theorem plus_star_equivalence :
    (∀ (p q : String) (u : Char), p.data = [u, '*'] → q.data = [u, '+'] →
      u ≠ '*' → u ≠ '+' → isascii u = true →
      ∃ gs gp, compile p = Except.ok gs ∧ compile q = Except.ok gp ∧
        ∀ (s : String) (fuel : Nat),
          check_string gs s fuel = check_string gp s fuel) ∧
    (∃ gp, compile "a+" = Except.ok gp ∧ check_string gp "" 6 = some true) := by
  constructor
  · intro p q u hp hq h1 h2 h3
    by_cases hu : u = '.'
    · subst hu
      refine ⟨⟨[⟨Tag.start, [2]⟩, ⟨Tag.dot, [2]⟩, ⟨Tag.star 1, [1, 3]⟩,
          ⟨Tag.termination, []⟩]⟩,
        ⟨[⟨Tag.start, [2]⟩, ⟨Tag.dot, [2]⟩, ⟨Tag.plus 1, [1, 3]⟩,
          ⟨Tag.termination, []⟩]⟩, ?_, ?_, ?_⟩
      · simp only [compile, hp]; rfl
      · simp only [compile, hq]; rfl
      · intro s fuel
        have hG : starifyG [⟨Tag.start, [2]⟩, ⟨Tag.dot, [2]⟩, ⟨Tag.plus 1, [1, 3]⟩,
            ⟨Tag.termination, []⟩] =
            [⟨Tag.start, [2]⟩, ⟨Tag.dot, [2]⟩, ⟨Tag.star 1, [1, 3]⟩,
              ⟨Tag.termination, []⟩] := rfl
        show dfs [⟨Tag.start, [2]⟩, ⟨Tag.dot, [2]⟩, ⟨Tag.star 1, [1, 3]⟩,
            ⟨Tag.termination, []⟩] s.data fuel (Frame.seq [2] 0) =
          dfs [⟨Tag.start, [2]⟩, ⟨Tag.dot, [2]⟩, ⟨Tag.plus 1, [1, 3]⟩,
            ⟨Tag.termination, []⟩] s.data fuel (Frame.seq [2] 0)
        rw [← hG, dfs_starify]
    · have hstep : compileStep initState u 0 =
          Except.ok ⟨[⟨Tag.start, [1]⟩, ⟨Tag.ascii u, []⟩], [(1, some 0), (0, none)]⟩ := by
        simp [compileStep, hu, h1, h2, h3]
        rfl
      refine ⟨⟨[⟨Tag.start, [2]⟩, ⟨Tag.ascii u, [2]⟩, ⟨Tag.star 1, [1, 3]⟩,
          ⟨Tag.termination, []⟩]⟩,
        ⟨[⟨Tag.start, [2]⟩, ⟨Tag.ascii u, [2]⟩, ⟨Tag.plus 1, [1, 3]⟩,
          ⟨Tag.termination, []⟩]⟩, ?_, ?_, ?_⟩
      · simp only [compile, hp, compileAux, hstep]; rfl
      · simp only [compile, hq, compileAux, hstep]; rfl
      · intro s fuel
        have hG : starifyG [⟨Tag.start, [2]⟩, ⟨Tag.ascii u, [2]⟩, ⟨Tag.plus 1, [1, 3]⟩,
            ⟨Tag.termination, []⟩] =
            [⟨Tag.start, [2]⟩, ⟨Tag.ascii u, [2]⟩, ⟨Tag.star 1, [1, 3]⟩,
              ⟨Tag.termination, []⟩] := rfl
        show dfs [⟨Tag.start, [2]⟩, ⟨Tag.ascii u, [2]⟩, ⟨Tag.star 1, [1, 3]⟩,
            ⟨Tag.termination, []⟩] s.data fuel (Frame.seq [2] 0) =
          dfs [⟨Tag.start, [2]⟩, ⟨Tag.ascii u, [2]⟩, ⟨Tag.plus 1, [1, 3]⟩,
            ⟨Tag.termination, []⟩] s.data fuel (Frame.seq [2] 0)
        rw [← hG, dfs_starify]
  · exact ⟨⟨[⟨Tag.start, [2]⟩, ⟨Tag.ascii 'a', [2]⟩, ⟨Tag.plus 1, [1, 3]⟩,
      ⟨Tag.termination, []⟩]⟩, by rfl, by decide⟩

/-- Witness for the hypotheses of `plus_star_equivalence`: instantiated with
the unit `a`, i.e. the concrete patterns `a*` and `a+`. -/
theorem plus_star_equivalence_witness :
    ∃ gs gp, compile "a*" = Except.ok gs ∧ compile "a+" = Except.ok gp ∧
      ∀ (s : String) (fuel : Nat), check_string gs s fuel = check_string gp s fuel :=
  plus_star_equivalence.1 "a*" "a+" 'a' rfl rfl (by decide) (by decide) (by decide)

/-! ### The matcher never mutates the graph -/

/-- State-passing translation of the matcher's `dfs`: the heap (arena) is
threaded through every call, each attribute access reads from the heap at
that point of the statement sequence (in particular the zero-occurrence skip
loop re-reads `state.next_states` from the heap current after the consuming
loop returned), and the heap is returned alongside the boolean.  The source's
`dfs` executes no assignment; this definition makes that checkable: the
returned heap is proved equal to the argument. -/
def dfsH (text : List Char) : Nat → Frame → List Node → Option Bool × List Node
  | 0, _, g => (none, g)
  | fuel + 1, Frame.node i idx, g =>
    match g[i]? with
    | none => (some false, g)
    | some n =>
      match n.tag with
      | Tag.termination => (some (decide (idx = text.length)), g)
      | t =>
        let afterConsume : Option Bool × List Node :=
          if idx < text.length && check_self g i (text.getD idx ' ') then
            dfsH text fuel (Frame.seq n.next (idx + 1)) g
          else (some false, g)
        match afterConsume with
        | (some false, g2) =>
          match t with
          | Tag.star _ => dfsH text fuel (Frame.seq (nextOf g2 i) idx) g2
          | Tag.plus _ => dfsH text fuel (Frame.seq (nextOf g2 i) idx) g2
          | _ => (some false, g2)
        | r => r
  | _ + 1, Frame.seq [] _, g => (some false, g)
  | fuel + 1, Frame.seq (j :: rest) idx, g =>
    match dfsH text fuel (Frame.node j idx) g with
    | (some false, g2) => dfsH text fuel (Frame.seq rest idx) g2
    | r => r

/-- State-passing `check_string`. -/
def check_stringH (g : List Node) (s : String) (fuel : Nat) : Option Bool × List Node :=
  match g[0]? with
  | some st => dfsH s.data fuel (Frame.seq st.next 0) g
  | none => (some false, g)

theorem dfsH_eq (text : List Char) :
    ∀ fuel t g, dfsH text fuel t g = (dfs g text fuel t, g) := by
  intro fuel
  induction fuel with
  | zero => intro t g; rfl
  | succ f ih =>
    intro t g
    match t with
    | Frame.node i idx =>
      simp only [dfsH, dfs]
      cases hg : g[i]? with
      | none => rfl
      | some n =>
        obtain ⟨tag, next⟩ := n
        cases tag with
        | termination => rfl
        | dot =>
          by_cases hc : (decide (idx < text.length) && check_self g i (text.getD idx ' ')) = true
          · simp only [hc, if_true, ih]
            cases hd : dfs g text f (Frame.seq next (idx + 1)) with
            | none => simp [hd]
            | some bb => cases bb <;> simp [hd]
          · simp only [Bool.not_eq_true] at hc
            simp only [hc, Bool.false_eq_true, if_false]
        | ascii sym =>
          by_cases hc : (decide (idx < text.length) && check_self g i (text.getD idx ' ')) = true
          · simp only [hc, if_true, ih]
            cases hd : dfs g text f (Frame.seq next (idx + 1)) with
            | none => simp [hd]
            | some bb => cases bb <;> simp [hd]
          · simp only [Bool.not_eq_true] at hc
            simp only [hc, Bool.false_eq_true, if_false]
        | start =>
          by_cases hc : (decide (idx < text.length) && check_self g i (text.getD idx ' ')) = true
          · simp only [hc, if_true, ih]
            cases hd : dfs g text f (Frame.seq next (idx + 1)) with
            | none => simp [hd]
            | some bb => cases bb <;> simp [hd]
          · simp only [Bool.not_eq_true] at hc
            simp only [hc, Bool.false_eq_true, if_false]
        | star inner =>
          by_cases hc : (decide (idx < text.length) && check_self g i (text.getD idx ' ')) = true
          · simp only [hc, if_true, ih]
            cases hd : dfs g text f (Frame.seq next (idx + 1)) with
            | none => simp [hd]
            | some bb => cases bb <;> simp [hd, ih, nextOf, hg]
          · simp only [Bool.not_eq_true] at hc
            simp only [hc, Bool.false_eq_true, if_false, ih, nextOf, hg]
        | plus inner =>
          by_cases hc : (decide (idx < text.length) && check_self g i (text.getD idx ' ')) = true
          · simp only [hc, if_true, ih]
            cases hd : dfs g text f (Frame.seq next (idx + 1)) with
            | none => simp [hd]
            | some bb => cases bb <;> simp [hd, ih, nextOf, hg]
          · simp only [Bool.not_eq_true] at hc
            simp only [hc, Bool.false_eq_true, if_false, ih, nextOf, hg]
    | Frame.seq [] idx => rfl
    | Frame.seq (j :: rest) idx =>
      simp only [dfsH, dfs, ih]
      cases hd : dfs g text f (Frame.node j idx) with
      | none => simp [hd]
      | some bb => cases bb <;> simp [hd, ih]

/-- Claim C9: `check_string` never mutates the compiled graph.  In the
state-passing translation `check_stringH`, where every heap access is
threaded, the heap component returned for every graph, string and fuel is
exactly the input heap — so every state's transition list, every
`AsciiState`'s stored symbol and every repeat node's `inner` reference are
identical before and after the call, and the same graph can be reused
read-only across matching calls (the boolean agrees with the pure
`check_string`). -/
theorem check_string_never_mutates_graph :
    ∀ (g : List Node) (s : String) (fuel : Nat),
      check_stringH g s fuel = (check_string ⟨g⟩ s fuel, g) := by
  intro g s fuel
  cases hg : g[0]? with
  | none => simp [check_stringH, check_string, hg]
  | some st => simp [check_stringH, check_string, hg, dfsH_eq]

/-! ### No literal state ever stores a reserved character -/

/-- Every `AsciiState` in the arena stores a character different from the
three reserved ones. -/
def goodTags (g : List Node) : Prop :=
  ∀ n ∈ g, ∀ sym, n.tag = Tag.ascii sym → sym ≠ '.' ∧ sym ≠ '*' ∧ sym ≠ '+'

theorem goodTags_appendNext {g : List Node} (h : goodTags g) (i j : Nat) :
    goodTags (appendNext g i j) := by
  unfold appendNext
  cases hg : g[i]? with
  | none => exact h
  | some n =>
    intro m hm sym htag
    rcases List.mem_or_eq_of_mem_set hm with hmem | heq
    · exact h m hmem sym htag
    · subst heq
      exact h n (List.getElem?_mem hg) sym htag

theorem goodTags_setNext {g : List Node} (h : goodTags g) (i : Nat) (l : List Nat) :
    goodTags (setNext g i l) := by
  unfold setNext
  cases hg : g[i]? with
  | none => exact h
  | some n =>
    intro m hm sym htag
    rcases List.mem_or_eq_of_mem_set hm with hmem | heq
    · exact h m hmem sym htag
    · subst heq
      exact h n (List.getElem?_mem hg) sym htag

theorem goodTags_append_single {g : List Node} (h : goodTags g) {nn : Node}
    (hn : ∀ sym, nn.tag = Tag.ascii sym → sym ≠ '.' ∧ sym ≠ '*' ∧ sym ≠ '+') :
    goodTags (g ++ [nn]) := by
  intro m hm sym htag
  rcases List.mem_append.1 hm with hmem | hmem
  · exact h m hmem sym htag
  · have hmn := List.mem_singleton.1 hmem
    subst hmn
    exact hn sym htag

theorem goodTags_pushNode {s : CState} (h : goodTags s.arena) {t : Tag}
    (ht : ∀ sym, t = Tag.ascii sym → sym ≠ '.' ∧ sym ≠ '*' ∧ sym ≠ '+') :
    goodTags (pushNode s t).arena := by
  unfold pushNode
  cases s.stack with
  | nil => exact h
  | cons hd tl =>
    exact goodTags_append_single (goodTags_appendNext h _ _) ht

theorem goodTags_compileStep {s s2 : CState} {c : Char} {i : Nat}
    (h : goodTags s.arena) (hstep : compileStep s c i = Except.ok s2) :
    goodTags s2.arena := by
  unfold compileStep at hstep
  by_cases hdot : c = '.'
  · rw [if_pos hdot] at hstep
    cases hstep
    exact goodTags_pushNode h (fun sym hsym => Tag.noConfusion hsym)
  · rw [if_neg hdot] at hstep
    by_cases hascii : (isascii c && c != '*' && c != '+') = true
    · rw [if_pos hascii] at hstep
      cases hstep
      refine goodTags_pushNode h (fun sym hsym => ?_)
      cases hsym
      simp only [Bool.and_eq_true, bne_iff_ne] at hascii
      exact ⟨hdot, hascii.1.2, hascii.2⟩
    · rw [if_neg hascii] at hstep
      by_cases hq : c = '*' ∨ c = '+'
      · rw [if_pos hq] at hstep
        cases hstack : s.stack with
        | nil => rw [hstack] at hstep; exact Except.noConfusion hstep
        | cons top rest =>
          obtain ⟨inner, parent⟩ := top
          rw [hstack] at hstep
          dsimp only at hstep
          by_cases hrest : rest.isEmpty
          · rw [if_pos hrest] at hstep; exact Except.noConfusion hstep
          · rw [if_neg hrest] at hstep
            have hbase : goodTags (appendNext s.arena inner s.arena.length ++
                [⟨if c = '*' then Tag.star inner else Tag.plus inner, [inner]⟩]) := by
              refine goodTags_append_single (goodTags_appendNext h _ _) ?_
              intro sym hsym
              by_cases hcs : c = '*' <;> simp [hcs] at hsym
            cases parent with
            | some p =>
              dsimp only at hstep
              cases hstep
              exact goodTags_setNext hbase _ _
            | none =>
              dsimp only at hstep
              cases hstep
              exact goodTags_setNext hbase _ _
      · rw [if_neg hq] at hstep
        exact Except.noConfusion hstep

theorem goodTags_compileAux : ∀ (cs : List Char) (i : Nat) (s s2 : CState),
    goodTags s.arena → compileAux cs i s = Except.ok s2 → goodTags s2.arena := by
  intro cs
  induction cs with
  | nil =>
    intro i s s2 h haux
    cases haux
    exact h
  | cons c cs ih =>
    intro i s s2 h haux
    unfold compileAux at haux
    cases hstep : compileStep s c i with
    | error e => rw [hstep] at haux; exact Except.noConfusion haux
    | ok s1 =>
      rw [hstep] at haux
      exact ih _ _ _ (goodTags_compileStep h hstep) haux

/-- Claim C10: for every pattern accepted by `compile`, no `AsciiState` in
the resulting graph stores one of the reserved characters `.`, `*`, `+`
(there is no escaping mechanism), and consequently `check_self` at a literal
node rejects every reserved character — a reserved character in the input
text can only be consumed through a `DotState` (or a repeat node delegating
to one), never by literal equality. -/
theorem no_reserved_literal :
    ∀ (p : String) (fsm : FSM), compile p = Except.ok fsm →
      (∀ n ∈ fsm.graph, ∀ sym, n.tag = Tag.ascii sym →
        sym ≠ '.' ∧ sym ≠ '*' ∧ sym ≠ '+') ∧
      (∀ (i : Nat) (n : Node) (sym c : Char), fsm.graph[i]? = some n →
        n.tag = Tag.ascii sym → (c = '.' ∨ c = '*' ∨ c = '+') →
        check_self fsm.graph i c = false) := by
  intro p fsm hc
  have hinit : goodTags initState.arena := by
    intro n hn sym htag
    rcases List.mem_singleton.1 hn with rfl
    exact Tag.noConfusion htag
  have hgood : goodTags fsm.graph := by
    unfold compile at hc
    cases haux : compileAux p.data 0 initState with
    | error e => rw [haux] at hc; exact Except.noConfusion hc
    | ok s =>
      rw [haux] at hc
      cases hc
      refine goodTags_appendNext ?_ _ _
      refine goodTags_append_single (goodTags_compileAux p.data 0 initState s hinit haux) ?_
      intro sym hsym
      exact Tag.noConfusion hsym
  refine ⟨hgood, ?_⟩
  intro i n sym c hg htag hres
  have hns := hgood n (List.getElem?_mem hg) sym htag
  have hcs : check_self fsm.graph i c = decide (c = sym) := by
    simp [check_self, check_selfF, hg, htag]
  rw [hcs]
  simp only [decide_eq_false_iff_not]
  rcases hres with rfl | rfl | rfl
  · exact fun hcc => hns.1 hcc.symm
  · exact fun hcc => hns.2.1 hcc.symm
  · exact fun hcc => hns.2.2 hcc.symm

/-- Witness for the hypotheses of `no_reserved_literal`: the pattern `a.`
compiles, its literal node is index 1, and that literal refuses the reserved
character `.`. -/
theorem no_reserved_literal_witness :
    check_self [⟨Tag.start, [1]⟩, ⟨Tag.ascii 'a', [2]⟩, ⟨Tag.dot, [3]⟩,
      ⟨Tag.termination, []⟩] 1 '.' = false :=
  (no_reserved_literal "a." ⟨[⟨Tag.start, [1]⟩, ⟨Tag.ascii 'a', [2]⟩,
      ⟨Tag.dot, [3]⟩, ⟨Tag.termination, []⟩]⟩ rfl).2 1
    ⟨Tag.ascii 'a', [2]⟩ 'a' '.' rfl rfl (Or.inl rfl)

/-! ### Characterisation of the two compile-time errors -/

theorem compileStep_dangling_inv {s : CState} {d : Char} {i0 : Nat} {c : Char} {i : Nat}
    (h : compileStep s d i0 = Except.error (CompileError.danglingQuantifier c i)) :
    c = d ∧ i = i0 ∧ (d = '*' ∨ d = '+') ∧ s.stack.length < 2 := by
  unfold compileStep at h
  by_cases hdot : d = '.'
  · rw [if_pos hdot] at h; exact Except.noConfusion h
  · rw [if_neg hdot] at h
    by_cases hascii : (isascii d && d != '*' && d != '+') = true
    · rw [if_pos hascii] at h; exact Except.noConfusion h
    · rw [if_neg hascii] at h
      by_cases hq : d = '*' ∨ d = '+'
      · rw [if_pos hq] at h
        cases hstack : s.stack with
        | nil =>
          rw [hstack] at h
          dsimp only at h
          obtain ⟨rfl, rfl⟩ : c = d ∧ i = i0 := by
            have := Except.error.inj h
            cases this
            exact ⟨rfl, rfl⟩
          exact ⟨rfl, rfl, hq, by simp [hstack]⟩
        | cons top rest =>
          obtain ⟨inner, parent⟩ := top
          rw [hstack] at h
          dsimp only at h
          by_cases hrest : rest.isEmpty
          · rw [if_pos hrest] at h
            obtain ⟨rfl, rfl⟩ : c = d ∧ i = i0 := by
              have := Except.error.inj h
              cases this
              exact ⟨rfl, rfl⟩
            have hrnil : rest = [] := List.isEmpty_iff.1 hrest
            exact ⟨rfl, rfl, hq, by simp [hstack, hrnil]⟩
          · rw [if_neg hrest] at h
            cases parent <;> dsimp only at h <;> exact Except.noConfusion h
      · rw [if_neg hq] at h
        have := Except.error.inj h
        exact CompileError.noConfusion this

theorem compileStep_unsupported_inv {s : CState} {d : Char} {i0 : Nat} {c : Char}
    (h : compileStep s d i0 = Except.error (CompileError.unsupportedSymbol c)) :
    c = d ∧ isascii d = false := by
  unfold compileStep at h
  by_cases hdot : d = '.'
  · rw [if_pos hdot] at h; exact Except.noConfusion h
  · rw [if_neg hdot] at h
    by_cases hascii : (isascii d && d != '*' && d != '+') = true
    · rw [if_pos hascii] at h; exact Except.noConfusion h
    · rw [if_neg hascii] at h
      by_cases hq : d = '*' ∨ d = '+'
      · rw [if_pos hq] at h
        cases hstack : s.stack with
        | nil =>
          rw [hstack] at h
          dsimp only at h
          exact CompileError.noConfusion (Except.error.inj h)
        | cons top rest =>
          obtain ⟨inner, parent⟩ := top
          rw [hstack] at h
          dsimp only at h
          by_cases hrest : rest.isEmpty
          · rw [if_pos hrest] at h
            exact CompileError.noConfusion (Except.error.inj h)
          · rw [if_neg hrest] at h
            cases parent <;> dsimp only at h <;> exact Except.noConfusion h
      · rw [if_neg hq] at h
        have heq := Except.error.inj h
        have hcd : c = d := by cases heq; rfl
        refine ⟨hcd, ?_⟩
        push_neg at hq
        have h1 : (d != '*') = true := bne_iff_ne.2 hq.1
        have h2 : (d != '+') = true := bne_iff_ne.2 hq.2
        cases hia : isascii d with
        | false => rfl
        | true =>
          exact absurd (by rw [hia, h1, h2]; rfl) hascii

theorem compileStep_nonascii {s : CState} {d : Char} {i : Nat}
    (h : isascii d = false) :
    compileStep s d i = Except.error (CompileError.unsupportedSymbol d) := by
  have hdot : d ≠ '.' := by
    intro hd
    rw [hd] at h
    exact Bool.noConfusion h
  have hascii : ¬(isascii d && d != '*' && d != '+') = true := by
    simp [h]
  have hq : ¬(d = '*' ∨ d = '+') := by
    rintro (rfl | rfl) <;> exact Bool.noConfusion h
  unfold compileStep
  rw [if_neg hdot, if_neg hascii, if_neg hq]

theorem compileStep_ok_stack {s s2 : CState} {d : Char} {i : Nat}
    (h : compileStep s d i = Except.ok s2) (hlen : 1 ≤ s.stack.length) :
    2 ≤ s2.stack.length := by
  unfold compileStep at h
  by_cases hdot : d = '.'
  · rw [if_pos hdot] at h
    cases h
    unfold pushNode
    cases hstack : s.stack with
    | nil => rw [hstack] at hlen; exact absurd hlen (by simp)
    | cons top rest => simp [hstack]
  · rw [if_neg hdot] at h
    by_cases hascii : (isascii d && d != '*' && d != '+') = true
    · rw [if_pos hascii] at h
      cases h
      unfold pushNode
      cases hstack : s.stack with
      | nil => rw [hstack] at hlen; exact absurd hlen (by simp)
      | cons top rest => simp [hstack]
    · rw [if_neg hascii] at h
      by_cases hq : d = '*' ∨ d = '+'
      · rw [if_pos hq] at h
        cases hstack : s.stack with
        | nil => rw [hstack] at h; exact Except.noConfusion h
        | cons top rest =>
          obtain ⟨inner, parent⟩ := top
          rw [hstack] at h
          dsimp only at h
          by_cases hrest : rest.isEmpty
          · rw [if_pos hrest] at h; exact Except.noConfusion h
          · rw [if_neg hrest] at h
            cases parent <;> dsimp only at h <;> cases h <;>
              simp [List.isEmpty_iff] at hrest <;>
              cases hrnil : rest with
              | nil => exact absurd hrnil hrest
              | cons r rs => simp [hrnil]
      · rw [if_neg hq] at h
        exact Except.noConfusion h

theorem compileAux_error_unsupported :
    ∀ (cs : List Char) (i : Nat) (s : CState) (c : Char),
      compileAux cs i s = Except.error (CompileError.unsupportedSymbol c) →
      isascii c = false ∧ c ∈ cs := by
  intro cs
  induction cs with
  | nil =>
    intro i s c h
    exact Except.noConfusion h
  | cons d ds ih =>
    intro i s c h
    unfold compileAux at h
    cases hstep : compileStep s d i with
    | error e =>
      rw [hstep] at h
      have he : e = CompileError.unsupportedSymbol c := Except.error.inj h
      subst he
      obtain ⟨rfl, hna⟩ := compileStep_unsupported_inv hstep
      exact ⟨hna, List.mem_cons_self _ _⟩
    | ok s1 =>
      rw [hstep] at h
      obtain ⟨hna, hmem⟩ := ih _ _ _ h
      exact ⟨hna, List.mem_cons_of_mem _ hmem⟩

theorem compileAux_no_dangling :
    ∀ (cs : List Char) (i : Nat) (s : CState), 2 ≤ s.stack.length →
      ∀ (c : Char) (j : Nat),
        compileAux cs i s ≠ Except.error (CompileError.danglingQuantifier c j) := by
  intro cs
  induction cs with
  | nil =>
    intro i s _ c j h
    exact Except.noConfusion h
  | cons d ds ih =>
    intro i s hlen c j h
    unfold compileAux at h
    cases hstep : compileStep s d i with
    | error e =>
      rw [hstep] at h
      have he : e = CompileError.danglingQuantifier c j := Except.error.inj h
      subst he
      have := (compileStep_dangling_inv hstep).2.2.2
      exact absurd hlen (by omega)
    | ok s1 =>
      rw [hstep] at h
      exact ih _ _ (compileStep_ok_stack hstep (by omega)) c j h

theorem compile_error_iff (p : String) (e : CompileError) :
    compile p = Except.error e ↔ compileAux p.data 0 initState = Except.error e := by
  unfold compile
  cases haux : compileAux p.data 0 initState with
  | error e2 => simp
  | ok s => simp

/-- Claim C5: `compile` fails with a dangling-quantifier error exactly when a
quantifier character opens the pattern (the chain then has fewer than two
entries, which can only happen at position 0), the error carries the
offending character and its position 0, and in particular `*a` and `*` fail
this way. -/
theorem dangling_quantifier_iff :
    (∀ (p : String) (c : Char) (rest : List Char), p.data = c :: rest →
      (c = '*' ∨ c = '+') →
      compile p = Except.error (CompileError.danglingQuantifier c 0)) ∧
    (∀ (p : String) (c : Char) (i : Nat),
      compile p = Except.error (CompileError.danglingQuantifier c i) →
      i = 0 ∧ p.data.head? = some c ∧ (c = '*' ∨ c = '+')) ∧
    compile "*a" = Except.error (CompileError.danglingQuantifier '*' 0) ∧
    compile "*" = Except.error (CompileError.danglingQuantifier '*' 0) := by
  refine ⟨?_, ?_, by rfl, by rfl⟩
  · intro p c rest hp hq
    rcases hq with rfl | rfl <;> · simp only [compile, hp]; rfl
  · intro p c i hc
    rw [compile_error_iff] at hc
    cases hpd : p.data with
    | nil =>
      rw [hpd] at hc
      exact Except.noConfusion hc
    | cons d ds =>
      rw [hpd] at hc
      unfold compileAux at hc
      cases hstep : compileStep initState d 0 with
      | error e =>
        rw [hstep] at hc
        have he : e = CompileError.danglingQuantifier c i := Except.error.inj hc
        subst he
        obtain ⟨rfl, rfl, hdq, _⟩ := compileStep_dangling_inv hstep
        exact ⟨rfl, rfl, hdq⟩
      | ok s1 =>
        rw [hstep] at hc
        have h2 : 2 ≤ s1.stack.length :=
          compileStep_ok_stack hstep (by simp [initState])
        exact absurd hc (compileAux_no_dangling ds 1 s1 h2 c i)

/-- Claim C6: `compile` fails with an unsupported-symbol error exactly for
characters outside the single-byte (ASCII) range: the error always carries a
non-ASCII character of the pattern, a step on a character `c` produces this
error precisely when `c` is not ASCII (so `.`, `*`, `+` and every other
ASCII character pass this check), and the error always names the character
the step was given. -/
theorem unsupported_symbol_iff :
    (∀ (p : String) (c : Char),
      compile p = Except.error (CompileError.unsupportedSymbol c) →
      isascii c = false ∧ c ∈ p.data) ∧
    (∀ (s : CState) (c : Char) (i : Nat),
      compileStep s c i = Except.error (CompileError.unsupportedSymbol c) ↔
        isascii c = false) ∧
    (∀ (s : CState) (c d : Char) (i : Nat),
      compileStep s c i = Except.error (CompileError.unsupportedSymbol d) →
        d = c) ∧
    compile "é" = Except.error (CompileError.unsupportedSymbol 'é') := by
  refine ⟨?_, ?_, ?_, by rfl⟩
  · intro p c hc
    rw [compile_error_iff] at hc
    exact compileAux_error_unsupported p.data 0 initState c hc
  · intro s c i
    constructor
    · intro h
      exact (compileStep_unsupported_inv h).2
    · intro h
      exact compileStep_nonascii h
  · intro s c d i h
    exact (compileStep_unsupported_inv h).1

/-- Witness for the hypotheses of `dangling_quantifier_iff`: the pattern `*b`
opens with a quantifier and fails with the dangling-quantifier error at
position 0. -/
theorem dangling_quantifier_iff_witness :
    compile "*b" = Except.error (CompileError.danglingQuantifier '*' 0) :=
  dangling_quantifier_iff.1 "*b" '*' ['b'] rfl (Or.inl rfl)

/-- Witness for the hypotheses of `unsupported_symbol_iff`: a compile step on
the non-ASCII character `é` fails with the unsupported-symbol error. -/
theorem unsupported_symbol_iff_witness :
    compileStep initState 'é' 0 = Except.error (CompileError.unsupportedSymbol 'é') :=
  (unsupported_symbol_iff.2.1 initState 'é' 0).2 (by decide)

/-! ### The quantifier rewiring step -/

theorem length_appendNext (g : List Node) (i j : Nat) :
    (appendNext g i j).length = g.length := by
  unfold appendNext
  cases g[i]? <;> simp

theorem nextOf_appendNext_self {g : List Node} {i : Nat} (j : Nat) (h : i < g.length) :
    nextOf (appendNext g i j) i = nextOf g i ++ [j] := by
  unfold appendNext nextOf
  rw [List.getElem?_eq_getElem h]
  simp [List.getElem?_set_self h]

theorem getElem?_appendNext_ne {g : List Node} {i k : Nat} (j : Nat) (h : k ≠ i) :
    (appendNext g i j)[k]? = g[k]? := by
  unfold appendNext
  cases hg : g[i]? with
  | none => rfl
  | some n => exact List.getElem?_set_ne (fun hik => h hik.symm)

theorem getElem?_setNext_ne {g : List Node} {i k : Nat} (l : List Nat) (h : k ≠ i) :
    (setNext g i l)[k]? = g[k]? := by
  unfold setNext
  cases hg : g[i]? with
  | none => rfl
  | some n => exact List.getElem?_set_ne (fun hik => h hik.symm)

theorem nextOf_setNext_self {g : List Node} {i : Nat} (l : List Nat) (h : i < g.length) :
    nextOf (setNext g i l) i = l := by
  unfold setNext nextOf
  rw [List.getElem?_eq_getElem h]
  simp [List.getElem?_set_self h]

theorem replaceFirst_append_not_mem : ∀ (l1 l2 : List Nat) (t r : Nat), t ∉ l1 →
    replaceFirst (l1 ++ t :: l2) t r = l1 ++ r :: l2 := by
  intro l1
  induction l1 with
  | nil => intro l2 t r _; simp [replaceFirst]
  | cons x xs ih =>
    intro l2 t r hnot
    have hx : x ≠ t := fun hxt => hnot (hxt ▸ List.mem_cons_self x xs)
    simp only [List.cons_append, replaceFirst, if_neg hx]
    exact congrArg (x :: ·) (ih l2 t r (fun hmem => hnot (List.mem_cons_of_mem x hmem)))

/-- `replaceLast` really replaces the last occurrence: on a list split as
`l1 ++ t :: l2` with no `t` in `l2`, the marked `t` becomes `r`. -/
theorem replaceLast_spec (l1 l2 : List Nat) (t r : Nat) (h : t ∉ l2) :
    replaceLast (l1 ++ t :: l2) t r = l1 ++ r :: l2 := by
  unfold replaceLast
  rw [show (l1 ++ t :: l2).reverse = l2.reverse ++ t :: l1.reverse by simp]
  rw [replaceFirst_append_not_mem l2.reverse l1.reverse t r (by simpa using h)]
  simp

theorem map_replace_not_mem : ∀ (l : List Nat) (t r : Nat), t ∉ l →
    l.map (fun x => if x = t then r else x) = l := by
  intro l
  induction l with
  | nil => intro t r _; rfl
  | cons a as ih =>
    intro t r hnot
    have ha : a ≠ t := fun hat => hnot (hat ▸ List.mem_cons_self a as)
    simp only [List.map_cons, if_neg ha]
    exact congrArg (a :: ·) (ih t r (fun hmem => hnot (List.mem_cons_of_mem a hmem)))

/-- Replacing every occurrence, when there is exactly one, also rewrites just
that entry (the `Start` rewiring path of the source). -/
theorem map_replace_single (l1 l2 : List Nat) (t r : Nat) (h1 : t ∉ l1) (h2 : t ∉ l2) :
    (l1 ++ t :: l2).map (fun x => if x = t then r else x) = l1 ++ r :: l2 := by
  rw [List.map_append, List.map_cons, if_pos rfl,
    map_replace_not_mem l1 t r h1, map_replace_not_mem l2 t r h2]

theorem nextOf_append_left {g : List Node} (g2 : List Node) {k : Nat}
    (h : k < g.length) : nextOf (g ++ g2) k = nextOf g k := by
  unfold nextOf
  rw [List.getElem?_append_left h]

theorem nextOf_appendNext_ne {g : List Node} {i k : Nat} (j : Nat) (h : k ≠ i) :
    nextOf (appendNext g i j) k = nextOf g k := by
  unfold nextOf
  rw [getElem?_appendNext_ne j h]

theorem nextOf_setNext_ne {g : List Node} {i k : Nat} (l : List Nat) (h : k ≠ i) :
    nextOf (setNext g i l) k = nextOf g k := by
  unfold nextOf
  rw [getElem?_setNext_ne l h]

theorem tagOf_setNext_ne {g : List Node} {i k : Nat} (l : List Nat) (h : k ≠ i) :
    tagOf (setNext g i l) k = tagOf g k := by
  unfold tagOf
  rw [getElem?_setNext_ne l h]

/-- Claim C3: processing a quantifier character `c` that wraps the current
tail `inner` (with recorded parent `parent`, the chain long enough) succeeds
and produces a state in which (a) `inner`'s transition list has gained
exactly the back-edge to the new repeat node (allocated at index
`s.arena.length`), (c) the repeat node's own transition list is exactly
`[inner]` and it carries the `Star`/`Plus` tag wrapping `inner`, and (b) the
state that previously pointed at `inner` — the recorded parent, or the start
state when there is none — has that entry redirected to the repeat node: the
last occurrence of `inner` in the parent's list (the unique occurrence in
the start state's list) is replaced by the repeat node's index, everything
else staying in place.  The side conditions (`inner` in range, parent
distinct from `inner` and in range, `inner` not the start index) hold in
every state the compiler actually reaches. -/
theorem quantifier_rewiring :
    ∀ (s : CState) (c : Char) (i inner : Nat) (parent : Option Nat)
      (rest : List (Nat × Option Nat)),
      s.stack = (inner, parent) :: rest →
      rest ≠ [] →
      (c = '*' ∨ c = '+') →
      inner < s.arena.length →
      (∀ p, parent = some p → p ≠ inner ∧ p < s.arena.length) →
      (parent = none → inner ≠ 0) →
      ∃ s2, compileStep s c i = Except.ok s2 ∧
        s2.stack = (s.arena.length, parent) :: rest ∧
        nextOf s2.arena inner = nextOf s.arena inner ++ [s.arena.length] ∧
        nextOf s2.arena s.arena.length = [inner] ∧
        tagOf s2.arena s.arena.length =
          some (if c = '*' then Tag.star inner else Tag.plus inner) ∧
        (∀ p l1 l2, parent = some p →
          nextOf s.arena p = l1 ++ inner :: l2 → inner ∉ l2 →
          nextOf s2.arena p = l1 ++ s.arena.length :: l2) ∧
        (∀ l1 l2, parent = none →
          nextOf s.arena 0 = l1 ++ inner :: l2 → inner ∉ l1 → inner ∉ l2 →
          nextOf s2.arena 0 = l1 ++ s.arena.length :: l2) := by
  intro s c i inner parent rest hstack hrest hq hinner hpar hpar0
  have hdot : ¬c = '.' := by rcases hq with rfl | rfl <;> decide
  have hg2 : ¬(isascii c && c != '*' && c != '+') = true := by
    rcases hq with rfl | rfl <;> decide
  have hrestE : ¬rest.isEmpty = true := by
    cases rest with
    | nil => exact absurd rfl hrest
    | cons a as => simp
  have hlen1 : (appendNext s.arena inner s.arena.length).length = s.arena.length :=
    length_appendNext _ _ _
  set j := s.arena.length with hj
  set tagc := if c = '*' then Tag.star inner else Tag.plus inner with htagc
  set a1 := appendNext s.arena inner j ++ [⟨tagc, [inner]⟩] with ha1
  have hlena1 : a1.length = j + 1 := by
    rw [ha1, List.length_append, hlen1]
    rfl
  have hF1 : nextOf a1 inner = nextOf s.arena inner ++ [j] := by
    rw [ha1, nextOf_append_left _ (by rw [hlen1]; exact hinner)]
    exact nextOf_appendNext_self j hinner
  have hF2 : a1[j]? = some ⟨tagc, [inner]⟩ := by
    rw [ha1]
    have := List.getElem?_concat_length (appendNext s.arena inner j) (⟨tagc, [inner]⟩ : Node)
    rwa [hlen1] at this
  have hF3 : ∀ k, k ≠ inner → k < s.arena.length → nextOf a1 k = nextOf s.arena k := by
    intro k hk hklt
    rw [ha1, nextOf_append_left _ (by rw [hlen1]; exact hklt)]
    exact nextOf_appendNext_ne j hk
  cases parent with
  | some p =>
    obtain ⟨hpne, hplt⟩ := hpar p rfl
    have hpj : p ≠ j := Nat.ne_of_lt hplt
    have hinnerp : inner ≠ p := Ne.symm hpne
    refine ⟨⟨setNext a1 p (replaceLast (nextOf a1 p) inner j), (j, some p) :: rest⟩,
      ?_, rfl, ?_, ?_, ?_, ?_, ?_⟩
    · unfold compileStep
      rw [if_neg hdot, if_neg hg2, if_pos hq, hstack]
      dsimp only
      rw [if_neg hrestE]
    · rw [nextOf_setNext_ne _ hinnerp]
      exact hF1
    · rw [nextOf_setNext_ne _ (Ne.symm hpj)]
      unfold nextOf
      rw [hF2]
    · rw [tagOf_setNext_ne _ (Ne.symm hpj)]
      unfold tagOf
      rw [hF2]
    · intro p2 l1 l2 hp2 hsplit hl2
      have hpp : p = p2 := Option.some.inj hp2
      subst hpp
      rw [nextOf_setNext_self _ (by rw [hlena1]; exact Nat.lt_succ_of_lt hplt)]
      rw [hF3 p hpne hplt, hsplit]
      exact replaceLast_spec l1 l2 inner j hl2
    · intro l1 l2 hnone
      exact absurd hnone (by simp)
  | none =>
    have hinner0 : inner ≠ 0 := hpar0 rfl
    have hlen0 : 0 < s.arena.length := Nat.lt_of_le_of_lt (Nat.zero_le inner) hinner
    have h0j : (0 : Nat) ≠ j := by
      rw [hj]
      omega
    refine ⟨⟨setNext a1 0 ((nextOf a1 0).map fun x => if x = inner then j else x),
      (j, none) :: rest⟩, ?_, rfl, ?_, ?_, ?_, ?_, ?_⟩
    · unfold compileStep
      rw [if_neg hdot, if_neg hg2, if_pos hq, hstack]
      dsimp only
      rw [if_neg hrestE]
    · rw [nextOf_setNext_ne _ hinner0]
      exact hF1
    · rw [nextOf_setNext_ne _ (Ne.symm h0j)]
      unfold nextOf
      rw [hF2]
    · rw [tagOf_setNext_ne _ (Ne.symm h0j)]
      unfold tagOf
      rw [hF2]
    · intro p2 l1 l2 hp2
      exact absurd hp2 (by simp)
    · intro l1 l2 _ hsplit h1 h2
      rw [nextOf_setNext_self _ (by rw [hlena1]; omega)]
      rw [hF3 0 (Ne.symm hinner0) (by omega), hsplit]
      exact map_replace_single l1 l2 inner j h1 h2

/-- Witness for the hypotheses of `quantifier_rewiring`: the compiler state
reached after processing `a` (arena `[Start → [1], Ascii a]`, chain
`Start, a`), hit with the quantifier `*` at position 1. -/
theorem quantifier_rewiring_witness :
    ∃ s2,
      compileStep ⟨[⟨Tag.start, [1]⟩, ⟨Tag.ascii 'a', []⟩], [(1, some 0), (0, none)]⟩
          '*' 1 = Except.ok s2 ∧
      s2.stack = (2, some 0) :: [(0, none)] ∧
      nextOf s2.arena 1 = nextOf [⟨Tag.start, [1]⟩, ⟨Tag.ascii 'a', []⟩] 1 ++ [2] ∧
      nextOf s2.arena 2 = [1] ∧
      tagOf s2.arena 2 = some (if '*' = '*' then Tag.star 1 else Tag.plus 1) ∧
      (∀ p l1 l2, (some 0 : Option Nat) = some p →
        nextOf [⟨Tag.start, [1]⟩, ⟨Tag.ascii 'a', []⟩] p = l1 ++ 1 :: l2 → 1 ∉ l2 →
        nextOf s2.arena p = l1 ++ 2 :: l2) ∧
      (∀ l1 l2, (some 0 : Option Nat) = none →
        nextOf [⟨Tag.start, [1]⟩, ⟨Tag.ascii 'a', []⟩] 0 = l1 ++ 1 :: l2 →
        1 ∉ l1 → 1 ∉ l2 →
        nextOf s2.arena 0 = l1 ++ 2 :: l2) :=
  quantifier_rewiring ⟨[⟨Tag.start, [1]⟩, ⟨Tag.ascii 'a', []⟩], [(1, some 0), (0, none)]⟩
    '*' 1 1 (some 0) [(0, none)] rfl (by decide) (Or.inl rfl) (by decide)
    (fun p hp => by cases Option.some.inj hp; exact ⟨by decide, by decide⟩)
    (fun h => Option.noConfusion h)
